import Mathlib

/-!
# Verification of the selection and navigation engine (`src/logic/selection.js`)

A shallow embedding of the selection core of the tree-structured JSON editor:
paths, JSON values, the parallel view-state tree, range expansion
(`expandSelection`), directional navigation (`getSelectionUp/Down/Left/Right`),
patch-to-selection reconciliation (`createSelectionFromOperations`) and
serialization (`selectionToPartialJson`), together with theorems checking the
specification's claims against this code.

Modelling conventions:
* JS machine numbers that occur in this code are array indices and lengths,
  modelled as `Nat`; JSON numbers are modelled as integers (`Int`), which is the
  range the claims exercise.
* Fallible code (JS `throw`) returns `Except String`; the JS `null` result of
  the navigation functions is `Option.none`, so a navigation function returns
  `Except String (Option Selection)`.
* `lodash.isEqual` on paths is structural equality of `Path`; JS strict
  equality `===` on path keys distinguishes the string `"1"` from the number
  `1`, exactly as `DecidableEq Key` does.
* A JS selection object without an `edit` field is modelled with `edit = false`
  (the code treats a missing flag and `false` identically), and the derived
  `pathsMap` member (compiled-pointer membership map) is omitted because it is
  determined by `paths`.
* The view-state tree (external collaborator, `documentState.js` and
  `constants.js` are outside this source tree) is modelled per the spec as a
  per-node metadata tree: an expanded flag, the stored key order for object
  nodes, and child states.
-/

set_option autoImplicit false

deriving instance DecidableEq for Except

namespace SelectionSpec

/-- A path key addressing a child of a JSON node: an object property name or an
array index. JS strict equality on keys never identifies a string with a
number, which the two constructors reflect. -/
inductive Key where
  | str (s : String)
  | idx (n : Nat)
deriving DecidableEq, Repr

/-- A path: an ordered list of keys addressing a node in the JSON tree. -/
abbrev Path := List Key

/-- JSON values. Arrays and objects carry their children as nested lists;
object fields keep their definition order. -/
inductive JValue where
  | null
  | bool (b : Bool)
  | num (n : Int)
  | str (s : String)
  | arr (items : List JValue)
  | obj (fields : List (String × JValue))

/-- First-match association lookup, the behaviour of JS property access on the
objects this code builds. -/
def lookupStr {α : Type} : List (String × α) → String → Option α
  | [], _ => none
  | (k, v) :: rest, s => if k = s then some v else lookupStr rest s

/-- Accumulate a decimal numeral; `none` on a non-digit. -/
def parseDigits (acc : Nat) : List Char → Option Nat
  | [] => some acc
  | c :: rest =>
    if 48 ≤ c.toNat ∧ c.toNat ≤ 57 then
      parseDigits (acc * 10 + (c.toNat - 48)) rest
    else none

/-- The value of a non-empty all-digit string, `none` otherwise. -/
def strToNat (s : String) : Option Nat :=
  match s.toList with
  | [] => none
  | c :: rest => parseDigits 0 (c :: rest)

/-- JS array access with a string property name: only the canonical decimal
form of an index reaches an element (`arr["1"]` does, `arr["01"]` does not).
Exotic array properties such as `length` are not modelled; no path in this
code addresses them. -/
def jsArrayIndex (s : String) : Option Nat :=
  match strToNat s with
  | some n => if toString n = s then some n else none
  | none => none

/-- `getIn` of `immutable-json-patch`: walk a path through a value, `none` for
a missing node (JS `undefined`). A numeric key on an object looks up its
decimal string, a string key on an array coerces to an index, as JS property
access does. -/
def getIn : JValue → Path → Option JValue
  | v, [] => some v
  | .arr items, .idx i :: rest =>
    match items.get? i with
    | some x => getIn x rest
    | none => none
  | .arr items, .str s :: rest =>
    match jsArrayIndex s with
    | some i =>
      match items.get? i with
      | some x => getIn x rest
      | none => none
    | none => none
  | .obj fields, .str s :: rest =>
    match lookupStr fields s with
    | some x => getIn x rest
    | none => none
  | .obj fields, .idx i :: rest =>
    match lookupStr fields (toString i) with
    | some x => getIn x rest
    | none => none
  | _, _ :: _ => none

/-- `isObject` of `utils/typeUtils.js` on a possibly-undefined value: a
non-null, non-array object. -/
def isObjectO : Option JValue → Bool
  | some (.obj _) => true
  | _ => false

/-- `Array.isArray` on a possibly-undefined value. -/
def isArrayO : Option JValue → Bool
  | some (.arr _) => true
  | _ => false

/-- `isObjectOrArray` of `utils/typeUtils.js` on a possibly-undefined value. -/
def isObjectOrArrayO (v : Option JValue) : Bool :=
  isObjectO v || isArrayO v

/-- `isObjectOrArray` on a present value. -/
def isObjectOrArrayV : JValue → Bool
  | .obj _ => true
  | .arr _ => true
  | _ => false

/-- `findSharedPath` of `selection.js`: longest common leading subsequence of
two paths, compared with JS strict equality on keys. -/
def findSharedPath : Path → Path → Path
  | k1 :: rest1, k2 :: rest2 =>
    if k1 = k2 then k1 :: findSharedPath rest1 rest2 else []
  | _, _ => []

/-!
## The view-state tree

Modelled from the spec: `documentState.js` and `constants.js` (the view-state
collaborator: `STATE_EXPANDED`/`STATE_KEYS` markers, `getVisiblePaths`,
`getPreviousVisiblePath`, `getNextVisiblePath`, `getVisibleCaretPositions`)
are not under this source tree. Per the spec the view state mirrors the JSON
tree and stores, per node, an expanded/collapsed flag and, for object nodes,
the ordered sequence of its keys, which defines the display and navigation
order. A node missing from the view state has an undefined expanded flag,
i.e. is collapsed.
-/

/-- A view-state node: expanded flag, the stored key order (absent for nodes
that are not objects, mirroring an undefined `STATE_KEYS` property), and the
child states keyed by path key. -/
inductive VState where
  | mk (expanded : Bool) (keyOrder : Option (List String))
      (children : List (Key × VState))

/-- The expanded flag of a view-state node. -/
def VState.expanded : VState → Bool
  | .mk e _ _ => e

/-- The stored key order of a view-state node. -/
def VState.keyOrder : VState → Option (List String)
  | .mk _ k _ => k

/-- The child view states of a view-state node. -/
def VState.children : VState → List (Key × VState)
  | .mk _ _ c => c

/-- Association lookup among child view states (JS strict-equality property
access on the state tree). -/
def lookupChild : List (Key × VState) → Key → Option VState
  | [], _ => none
  | (k, c) :: rest, key => if k = key then some c else lookupChild rest key

/-- The state of a node absent from the view-state tree: collapsed, no stored
key order (all its properties read as `undefined`). -/
def VState.missing : VState := .mk false none []

/-- The child state under a key, collapsed-by-default when absent. -/
def VState.childAt (st : VState) (k : Key) : VState :=
  (lookupChild st.children k).getD .missing

/-- Walk the view-state tree along a path; `none` when a node on the way is
absent (JS `getIn` on the state returning `undefined`). -/
def stateAt : VState → Path → Option VState
  | st, [] => some st
  | st, k :: rest =>
    match lookupChild st.children k with
    | some c => stateAt c rest
    | none => none

/-- `getIn(state, path.concat(STATE_KEYS))`: the stored key order of the node
at `path`, `none` when the node or the order is absent. -/
def stateKeysAt (st : VState) (p : Path) : Option (List String) :=
  (stateAt st p).bind VState.keyOrder

/-- `setIn(state, path.concat(STATE_EXPANDED), false, true)`: a structurally
new state whose node at `path` is collapsed; missing intermediate nodes are
created (with all-undefined contents), as `setIn` with `createPath = true`
does. -/
def setExpandedFalse : VState → Path → VState
  | .mk _ ks cs, [] => .mk false ks cs
  | .mk e ks cs, k :: rest =>
    .mk e ks
      (if (lookupChild cs k).isSome then
        cs.map (fun kc => if kc.1 = k then (kc.1, setExpandedFalse kc.2 rest) else kc)
      else
        cs ++ [(k, setExpandedFalse .missing rest)])
termination_by _ p => p.length

/-!
## Range expansion (`expandSelection`)
-/

/-- `keys.indexOf(key)` for a key order of strings and a path key: JS strict
equality means a numeric key never matches; `none` is JS `-1`. -/
def keyIndexIn (keys : List String) : Key → Option Nat
  | .str s => keys.findIdx? (· = s)
  | .idx _ => none

/-- JS `ToNumber` coercion of a path key as used by `Math.min`/`Math.max` in
the array branch of `expandSelection`: an index is itself, a string key is a
number exactly when it is a decimal numeral (`none` is JS `NaN`; the empty
string, which JS coerces to `0`, does not occur as an array key here). -/
def keyToNumber : Key → Option Nat
  | .idx n => some n
  | .str s => strToNat s

/-- `expandSelection` of `selection.js`: expand an anchor/focus path pair into
the ordered list of all paths between and including them. The JS fall-through
from the object branch with a key missing from the stored key order reaches
the final `throw`, inlined here as the error in the object branch; indexing
`keys.indexOf` on an undefined key order is a JS `TypeError`, modelled as a
distinct error string. JS `Math.min/max` on a `NaN` bound yields a loop that
never runs, hence the `.ok []` in the array branch's coercion-failure case. -/
def expandSelection (json : JValue) (state : VState) (anchorPath focusPath : Path) :
    Except String (List Path) :=
  if anchorPath = focusPath then
    .ok [anchorPath]
  else
    let sharedPath := findSharedPath anchorPath focusPath
    if anchorPath.length = sharedPath.length ∨ focusPath.length = sharedPath.length then
      .ok [sharedPath]
    else
      let anchorKey := anchorPath.getD sharedPath.length (.str "")
      let focusKey := focusPath.getD sharedPath.length (.str "")
      let value := getIn json sharedPath
      if isObjectO value then
        match stateKeysAt state sharedPath with
        | none => .error "TypeError: cannot read indexOf of undefined"
        | some keys =>
          match keyIndexIn keys anchorKey, keyIndexIn keys focusKey with
          | some anchorIndex, some focusIndex =>
            let startIndex := min anchorIndex focusIndex
            let endIndex := max anchorIndex focusIndex
            .ok ((List.range (endIndex + 1 - startIndex)).map
              (fun i => sharedPath ++ [Key.str (keys.getD (startIndex + i) "")]))
          | _, _ => .error "Failed to create selection"
      else if isArrayO value then
        match keyToNumber anchorKey, keyToNumber focusKey with
        | some a, some f =>
          let startIndex := min a f
          let endIndex := max a f
          .ok ((List.range (endIndex + 1 - startIndex)).map
            (fun i => sharedPath ++ [Key.idx (startIndex + i)]))
        | _, _ => .ok []
      else
        .error "Failed to create selection"

/-!
## Selections
-/

/-- The `SELECTION_TYPE` constants of `selection.js`. -/
inductive SelectionType where
  | key
  | value
  | after
  | inside
  | multi
deriving DecidableEq, Repr

/-- A selection value. `paths` is populated only for `multi` selections (`[]`
elsewhere models the absent JS field); the derived `pathsMap` of the source is
determined by `paths` and omitted; a missing JS `edit` flag is `false`. -/
structure Selection where
  type : SelectionType
  anchorPath : Path
  focusPath : Path
  paths : List Path
  edit : Bool
deriving DecidableEq, Repr

/-- `createSelection` of `selection.js` applied to a schema carrying an
`anchorPath`/`focusPath` pair (the shape every `SELECTION_TYPE.MULTI` call
site passes): expand the pair and resolve which end of the expanded range is
the new anchor. When the expansion is empty (JS `first`/`last` of `[]` are
`undefined`) the JS object would carry undefined endpoints; no call the claims
exercise reaches that case, and the endpoints default to the root path here. -/
def createMultiSelection (json : JValue) (state : VState) (anchorPath focusPath : Path) :
    Except String Selection :=
  match expandSelection json state anchorPath focusPath with
  | .error e => .error e
  | .ok paths =>
    let focusPathLast :=
      paths.getLast? = some focusPath ∨ paths.head? = some anchorPath
    .ok ⟨.multi,
      (if focusPathLast then paths.head? else paths.getLast?).getD [],
      (if focusPathLast then paths.getLast? else paths.head?).getD [],
      paths, false⟩

/-- `createSelection` of `selection.js` applied to a schema carrying a single
`path` and no advance flags (the shape the caret-motion call sites of
`getSelectionLeft`/`getSelectionRight` pass): a single-node selection of the
given type. A `multi` type with only a `path` matches no branch and hits the
final `throw new TypeError`. -/
def createCaretSelection (t : SelectionType) (path : Path) : Except String Selection :=
  match t with
  | .key => .ok ⟨.key, path, path, [], false⟩
  | .value => .ok ⟨.value, path, path, [], false⟩
  | .after => .ok ⟨.after, path, path, [], false⟩
  | .inside => .ok ⟨.inside, path, path, [], false⟩
  | .multi => .error "TypeError: unknown type of selection"

/-!
## The visibility provider

Modelled from the spec: `getVisiblePaths`, `getPreviousVisiblePath`,
`getNextVisiblePath` and `getVisibleCaretPositions` live in the external
`documentState.js`, which is not under this source tree. Per the spec,
`getVisiblePaths` lists paths in document order respecting collapse (a node
first, then — when it is an expanded container — its visible descendants;
object children in the view-state's stored key order, array children by
index), and `getVisibleCaretPositions` lists the caret stops (key, value,
after, inside) in navigation order: a key caret only for an object member
(arrays have no key caret and the root has none), the value caret of the node,
an inside caret for an expanded container, then each visible child's carets
followed by the child's after caret. -/

/-- Concatenate per-key blocks in the order of a key list: the block of each
stored key, keys without a block skipped. -/
def assembleByKeys {α : Type} (keys : List String) (blocks : List (String × List α)) :
    List α :=
  keys.flatMap (fun k => (lookupStr blocks k).getD [])

mutual
/-- Modelled from the spec: `getVisiblePaths` of the external
`documentState.js`, relative to one node — the node itself, then the visible
descendants of an expanded container. -/
def visiblePathsOf : JValue → VState → List Path
  | .arr items, st =>
    [] :: (if st.expanded then visiblePathsItems items st 0 else [])
  | .obj fields, st =>
    [] :: (if st.expanded then
        assembleByKeys (st.keyOrder.getD []) (visiblePathsFields fields st)
      else [])
  | _, _ => [[]]

/-- Visible paths contributed by the items of an array, from index `i` on. -/
def visiblePathsItems : List JValue → VState → Nat → List Path
  | [], _, _ => []
  | x :: rest, st, i =>
    (visiblePathsOf x (st.childAt (.idx i))).map (fun p => Key.idx i :: p)
      ++ visiblePathsItems rest st (i + 1)

/-- Visible paths contributed by each field of an object, per key; assembled
in stored-key order by `assembleByKeys`. -/
def visiblePathsFields : List (String × JValue) → VState → List (String × List Path)
  | [], _ => []
  | (k, x) :: rest, st =>
    (k, (visiblePathsOf x (st.childAt (.str k))).map (fun p => Key.str k :: p))
      :: visiblePathsFields rest st
end

/-- Modelled from the spec: `getVisiblePaths(json, state)` of the external
`documentState.js` — the ordered visible paths of the document. -/
def getVisiblePaths (json : JValue) (state : VState) : List Path :=
  visiblePathsOf json state

/-- Modelled from the spec: `getPreviousVisiblePath` of the external
`documentState.js` — the visible path immediately before the given one,
`none` at the first visible position or for an unknown path. -/
def getPreviousVisiblePath (json : JValue) (state : VState) (path : Path) : Option Path :=
  let paths := getVisiblePaths json state
  match paths.findIdx? (fun p => p = path) with
  | some (i + 1) => paths.get? i
  | _ => none

/-- Modelled from the spec: `getNextVisiblePath` of the external
`documentState.js` — the visible path immediately after the given one, `none`
at the last visible position or for an unknown path. -/
def getNextVisiblePath (json : JValue) (state : VState) (path : Path) : Option Path :=
  let paths := getVisiblePaths json state
  match paths.findIdx? (fun p => p = path) with
  | some i => paths.get? (i + 1)
  | none => none

/-- A caret stop: an addressable cursor position, one of the four
single-node selection types at a path. -/
structure CaretPosition where
  path : Path
  type : SelectionType
deriving DecidableEq, Repr

mutual
/-- Modelled from the spec: `getVisibleCaretPositions` of the external
`documentState.js`, relative to one node — its value caret, then for an
expanded container the inside caret and each visible child's carets. -/
def caretsOf : JValue → VState → List CaretPosition
  | .arr items, st =>
    ⟨[], .value⟩ :: (if st.expanded then ⟨[], .inside⟩ :: caretsItems items st 0 else [])
  | .obj fields, st =>
    ⟨[], .value⟩ :: (if st.expanded then
        ⟨[], .inside⟩ :: assembleByKeys (st.keyOrder.getD []) (caretsFields fields st)
      else [])
  | _, _ => [⟨[], .value⟩]

/-- Caret stops contributed by the items of an array from index `i` on: each
item's carets (arrays have no key caret) and its after caret. -/
def caretsItems : List JValue → VState → Nat → List CaretPosition
  | [], _, _ => []
  | x :: rest, st, i =>
    (caretsOf x (st.childAt (.idx i))).map (fun c => ⟨Key.idx i :: c.path, c.type⟩)
      ++ ⟨[Key.idx i], .after⟩ :: caretsItems rest st (i + 1)

/-- Caret stops contributed by each field of an object, per key: the member's
key caret, its carets, and its after caret; assembled in stored-key order. -/
def caretsFields : List (String × JValue) → VState → List (String × List CaretPosition)
  | [], _ => []
  | (k, x) :: rest, st =>
    (k, ⟨[Key.str k], .key⟩ ::
        ((caretsOf x (st.childAt (.str k))).map (fun c => ⟨Key.str k :: c.path, c.type⟩)
          ++ [⟨[Key.str k], .after⟩]))
      :: caretsFields rest st
end

/-- Modelled from the spec: `getVisibleCaretPositions(json, state)` of the
external `documentState.js` — the ordered caret stops of the document. -/
def getVisibleCaretPositions (json : JValue) (state : VState) : List CaretPosition :=
  caretsOf json state

/-- Result record of `findCaretAndSiblings`. -/
structure CaretSiblings where
  caret : Option CaretPosition
  previous : Option CaretPosition
  next : Option CaretPosition

/-- `findCaretAndSiblings` of `selection.js`: locate the caret stop matching
the selection's focus path and type among the visible caret positions, with
its neighbours. -/
def findCaretAndSiblings (json : JValue) (state : VState) (selection : Selection) :
    CaretSiblings :=
  let visibleCaretPositions := getVisibleCaretPositions json state
  match visibleCaretPositions.findIdx?
      (fun caret => decide (caret.path = selection.focusPath ∧ caret.type = selection.type)) with
  | none => ⟨none, none, none⟩
  | some index =>
    ⟨visibleCaretPositions.get? index,
     if index > 0 then visibleCaretPositions.get? (index - 1) else none,
     visibleCaretPositions.get? (index + 1)⟩

/-!
## Directional navigation
-/

/-- `getSelectionUp` of `selection.js`. JS `null` is `Option.none`; a
propagated `throw` is `.error`. The source's `createSelection` calls all pass
a `MULTI` schema and become `createMultiSelection`. -/
def getSelectionUp (json : JValue) (state : VState) (selection : Selection)
    (keepAnchorPath : Bool) : Except String (Option Selection) :=
  match getPreviousVisiblePath json state selection.focusPath with
  | none => .ok none
  | some previousPath =>
    let anchorPath := previousPath
    let focusPath := previousPath
    if keepAnchorPath then
      if selection.type = .after ∨ selection.type = .inside then
        (createMultiSelection json state selection.anchorPath selection.anchorPath).map some
      else
        (createMultiSelection json state selection.anchorPath focusPath).map some
    else if selection.type = .key then
      let parentPath := previousPath.dropLast
      let parent := getIn json parentPath
      if isArrayO parent || previousPath.isEmpty then
        .ok (some ⟨.value, anchorPath, focusPath, [], false⟩)
      else
        .ok (some ⟨.key, anchorPath, focusPath, [], false⟩)
    else if selection.type = .value then
      .ok (some ⟨.value, anchorPath, focusPath, [], false⟩)
    else if selection.type = .after then
      (createMultiSelection json state selection.focusPath selection.focusPath).map some
    else if selection.type = .inside then
      (createMultiSelection json state selection.focusPath selection.focusPath).map some
    else
      (createMultiSelection json state anchorPath focusPath).map some

/-- The transient state of the extending branch of `getSelectionDown`: when
the focus value is an object or array its expanded flag is forced to `false`
(`setIn(state, path.concat(STATE_EXPANDED), false, true)`), so the next
visible path is computed past the focus subtree. -/
def collapsedFocusState (json : JValue) (state : VState) (path : Path) : VState :=
  if isObjectOrArrayO (getIn json path) then setExpandedFalse state path else state

/-- `getSelectionDown` of `selection.js`. In the extending branch the state
copy with the focus node collapsed makes the next lookup skip over the focus
subtree. -/
def getSelectionDown (json : JValue) (state : VState) (selection : Selection)
    (keepAnchorPath : Bool) : Except String (Option Selection) :=
  match getNextVisiblePath json state selection.focusPath with
  | none => .ok none
  | some nextPath =>
    let anchorPath := nextPath
    let focusPath := nextPath
    if keepAnchorPath then
      let collapsedState := collapsedFocusState json state selection.focusPath
      match getNextVisiblePath json collapsedState selection.focusPath with
      | none => .ok none
      | some nextPathAfter =>
        if selection.type = .after then
          (createMultiSelection json state nextPathAfter nextPathAfter).map some
        else if selection.type = .inside then
          (createMultiSelection json state anchorPath focusPath).map some
        else
          (createMultiSelection json state selection.anchorPath nextPathAfter).map some
    else if selection.type = .key then
      let parentPath := nextPath.dropLast
      let parent := getIn json parentPath
      if isArrayO parent then
        .ok (some ⟨.value, anchorPath, focusPath, [], false⟩)
      else
        .ok (some ⟨.key, anchorPath, focusPath, [], false⟩)
    else if selection.type = .value then
      .ok (some ⟨.value, anchorPath, focusPath, [], false⟩)
    else if selection.type = .inside then
      (createMultiSelection json state anchorPath focusPath).map some
    else
      (createMultiSelection json state nextPath nextPath).map some

/-- `getSelectionLeft` of `selection.js`. The caret-motion call site passes
`createSelection` a single-path schema of the previous caret's type
(`createCaretSelection`); the fallback conversions pass a `MULTI` pair or a
`KEY` path. -/
def getSelectionLeft (json : JValue) (state : VState) (selection : Selection)
    (keepAnchorPath : Bool) : Except String (Option Selection) :=
  let siblings := findCaretAndSiblings json state selection
  if keepAnchorPath then
    if selection.type ≠ .multi then
      (createMultiSelection json state selection.anchorPath selection.focusPath).map some
    else
      .ok none
  else
    match siblings.caret, siblings.previous with
    | some _, some previous =>
      (createCaretSelection previous.type previous.path).map some
    | _, _ =>
      let parentPath := selection.focusPath.dropLast
      let parent := getIn json parentPath
      if selection.type = .value ∧ isArrayO parent then
        (createMultiSelection json state selection.focusPath selection.focusPath).map some
      else if selection.type = .multi ∧ ¬ isArrayO parent then
        (createCaretSelection .key selection.focusPath).map some
      else
        .ok none

/-- `getSelectionRight` of `selection.js`. -/
def getSelectionRight (json : JValue) (state : VState) (selection : Selection)
    (keepAnchorPath : Bool) : Except String (Option Selection) :=
  let siblings := findCaretAndSiblings json state selection
  if keepAnchorPath then
    if selection.type ≠ .multi then
      (createMultiSelection json state selection.anchorPath selection.focusPath).map some
    else
      .ok none
  else
    match siblings.caret, siblings.next with
    | some _, some next =>
      (createCaretSelection next.type next.path).map some
    | _, _ =>
      if selection.type = .multi then
        (createCaretSelection .value selection.focusPath).map some
      else
        .ok none

/-!
## Patch-to-selection reconciliation
-/

/-- A JSON-Patch operation as this code reads it: the `op` name, the target
pointer `path`, and the optional source pointer `from` (`fromPtr` here, since
`from` is reserved in Lean). The operation's `value` payload is never read by
`createSelectionFromOperations` and is omitted. -/
structure Op where
  op : String
  path : String
  fromPtr : Option String
deriving DecidableEq, Repr

/-- Unescape a JSON-Pointer token: every `~1` becomes `/`, every `~0` becomes
`~` (left to right, as the RFC 6901 two-pass replacement). -/
def unescapeChars : List Char → List Char
  | [] => []
  | '~' :: '1' :: rest => '/' :: unescapeChars rest
  | '~' :: '0' :: rest => '~' :: unescapeChars rest
  | c :: rest => c :: unescapeChars rest

/-- Split a character list on `/` into tokens (at least one token). -/
def splitOnSlash : List Char → List (List Char)
  | [] => [[]]
  | c :: rest =>
    if c = '/' then [] :: splitOnSlash rest
    else
      match splitOnSlash rest with
      | t :: ts => (c :: t) :: ts
      | [] => [[c]]

/-- Modelled from the spec: the JSON-Pointer parser of the external
`utils/jsonPointer.js` (not under this source tree) — split a pointer on `/`
after its leading slash, unescaping each token; the empty pointer is the root
path. -/
def parseJSONPointerTokens (ptr : String) : List String :=
  if ptr = "" then []
  else ((ptr.drop 1).toList |> splitOnSlash).map (fun t => String.mk (unescapeChars t))

/-- Walk the document alongside pointer tokens, typing each token: under an
array a canonical decimal token becomes an array index, anything else stays a
property name. -/
def addArrayIndices : JValue → List String → Path
  | _, [] => []
  | .arr items, s :: rest =>
    match jsArrayIndex s with
    | some i => Key.idx i :: addArrayIndices ((items.get? i).getD .null) rest
    | none => Key.str s :: addArrayIndices .null rest
  | .obj fields, s :: rest =>
    Key.str s :: addArrayIndices ((lookupStr fields s).getD .null) rest
  | _, s :: rest => Key.str s :: addArrayIndices .null rest

/-- Modelled from the spec: `parseJSONPointerWithArrayIndices` of the external
`utils/jsonPointer.js` — parse a pointer into a path with correct array-index
typing, consulting the document. -/
def parseJSONPointerWithArrayIndices (json : JValue) (ptr : String) : Path :=
  addArrayIndices json (parseJSONPointerTokens ptr)

/-- The path list of the fall-through branch of `createSelectionFromOperations`:
target paths of every operation that is not a `test`, not a `remove` and not a
no-op `move`. The source also skips an operation whose `path` is not a string;
`Op.path` is always a string here, so that guard is identically true. -/
def operationsMultiPaths (json : JValue) (operations : List Op) : List Path :=
  (operations.filter (fun operation =>
    decide (operation.op ≠ "test" ∧ operation.op ≠ "remove" ∧
      (operation.op ≠ "move" ∨ operation.fromPtr ≠ some operation.path)))).map
    (fun operation => parseJSONPointerWithArrayIndices json operation.path)

/-- The fall-through branch of `createSelectionFromOperations`: no surviving
path means no selection, otherwise a `multi` selection carrying exactly the
collected paths, anchored at the first and focused at the last. -/
def operationsFallbackSelection (json : JValue) (operations : List Op) : Option Selection :=
  let paths := operationsMultiPaths json operations
  if paths.isEmpty then none
  else some ⟨.multi, paths.headD [], paths.getLastD [], paths, false⟩

/-- The rename-detection branch of `createSelectionFromOperations`: a
non-empty all-`move` list whose first operation really moves and whose other
operations are no-op moves is a key rename, selecting the renamed key. -/
def operationsRenameOrFallback (json : JValue) (operations : List Op) : Option Selection :=
  match operations with
  | firstOp :: otherOps =>
    if (∀ o ∈ firstOp :: otherOps, o.op = "move") then
      if firstOp.fromPtr ≠ some firstOp.path ∧ (∀ o ∈ otherOps, o.fromPtr = some o.path) then
        let path := parseJSONPointerWithArrayIndices json firstOp.path
        some ⟨.key, path, path, [], false⟩
      else operationsFallbackSelection json operations
    else operationsFallbackSelection json operations
  | [] => operationsFallbackSelection json operations

/-- `createSelectionFromOperations` of `selection.js`: a single `replace` or
`move` selects the replaced value; an all-`move` rename selects the renamed
key; otherwise the surviving target paths form a `multi` selection, or no
selection when none survive. -/
def createSelectionFromOperations (json : JValue) (operations : List Op) : Option Selection :=
  match operations with
  | [operation] =>
    if operation.op = "replace" ∨ operation.op = "move" then
      let path := parseJSONPointerWithArrayIndices json operation.path
      some ⟨.value, path, path, [], false⟩
    else operationsRenameOrFallback json operations
  | _ => operationsRenameOrFallback json operations

/-!
## Serialization (`selectionToPartialJson`)
-/

/-- One character of a JSON-quoted string, as `JSON.stringify` escapes it. -/
def escapeJSONChar (c : Char) : String :=
  if c = '"' then "\\\""
  else if c = '\\' then "\\\\"
  else if c = '\x08' then "\\b"
  else if c = '\x0c' then "\\f"
  else if c = '\n' then "\\n"
  else if c = '\r' then "\\r"
  else if c = '\t' then "\\t"
  else if c.toNat < 0x20 then
    let hex := Nat.toDigits 16 c.toNat
    "\\u" ++ String.mk (List.replicate (4 - hex.length) '0') ++ String.mk hex
  else String.mk [c]

/-- `JSON.stringify` of a string value. -/
def jsonQuote (s : String) : String :=
  "\"" ++ String.join (s.toList.map escapeJSONChar) ++ "\""

mutual
/-- `JSON.stringify(value, null, gap)` restricted to the values of `JValue`,
at nesting prefix `indent`: scalars print their literal, containers print on
one line when the gap is empty and in the multi-line pretty format
otherwise. -/
def stringifySer : JValue → String → String → String
  | .null, _, _ => "null"
  | .bool b, _, _ => if b then "true" else "false"
  | .num n, _, _ => toString n
  | .str s, _, _ => jsonQuote s
  | .arr items, indent, gap =>
    let indent2 := indent ++ gap
    let parts := stringifyItems items indent2 gap
    if parts.isEmpty then "[]"
    else if gap = "" then "[" ++ String.intercalate "," parts ++ "]"
    else "[\n" ++ indent2 ++ String.intercalate (",\n" ++ indent2) parts
      ++ "\n" ++ indent ++ "]"
  | .obj fields, indent, gap =>
    let indent2 := indent ++ gap
    let parts := stringifyFields fields indent2 gap
    if parts.isEmpty then "\x7b\x7d"
    else if gap = "" then "\x7b" ++ String.intercalate "," parts ++ "\x7d"
    else "\x7b\n" ++ indent2 ++ String.intercalate (",\n" ++ indent2) parts
      ++ "\n" ++ indent ++ "\x7d"

/-- The serialized items of an array, in order. -/
def stringifyItems : List JValue → String → String → List String
  | [], _, _ => []
  | x :: rest, indent, gap => stringifySer x indent gap :: stringifyItems rest indent gap

/-- The serialized `"key": value` members of an object, in definition order
(the member separator is `: ` with a gap and `:` without, as in
`JSON.stringify`). -/
def stringifyFields : List (String × JValue) → String → String → List String
  | [], _, _ => []
  | (k, v) :: rest, indent, gap =>
    (jsonQuote k ++ (if gap = "" then ":" else ": ") ++ stringifySer v indent gap)
      :: stringifyFields rest indent gap
end

/-- `JSON.stringify(value, null, indentation)` with a numeric indentation:
the gap is that many spaces, capped at ten as in ECMA-262. -/
def jsonStringify (value : JValue) (indentation : Nat) : String :=
  stringifySer value "" (String.mk (List.replicate (min indentation 10) ' '))

/-- `getParentPath` of `selection.js`: the container whose children are
selected — the focus path itself for an `inside` selection, its parent
otherwise. -/
def getParentPath (selection : Selection) : Path :=
  if selection.type = .inside then selection.focusPath
  else selection.focusPath.dropLast

/-- `JSON.stringify` of a path key (a string or a number). -/
def stringifyKeyJS : Key → String
  | .str s => jsonQuote s
  | .idx n => toString n

/-- `JSON.stringify(getIn(json, path), null, indentation)` as interpolated
into a template literal: a missing value prints as `undefined`. -/
def stringifyAt (json : JValue) (path : Path) (indentation : Nat) : String :=
  match getIn json path with
  | some v => jsonStringify v indentation
  | none => "undefined"

/-- `selectionToPartialJson` of `selection.js`: serialize the selected
contents to partial JSON text for the clipboard; JS `null` (and the
`undefined` that `JSON.stringify` yields on a missing node) is `none`. -/
def selectionToPartialJson (json : JValue) (selection : Selection)
    (indentation : Nat) : Option String :=
  if selection.type = .key then
    (selection.focusPath.getLast?).map stringifyKeyJS
  else if selection.type = .value then
    (getIn json selection.focusPath).map (fun value => jsonStringify value indentation)
  else if selection.type = .multi then
    if selection.focusPath.isEmpty then
      some (jsonStringify json indentation)
    else
      let parentPath := getParentPath selection
      let parent := getIn json parentPath
      if isArrayO parent then
        if selection.paths.length = 1 then
          (getIn json (selection.paths.headD [])).map
            (fun item => jsonStringify item indentation)
        else
          some (String.intercalate "\n" (selection.paths.map
            (fun path => stringifyAt json path indentation ++ ",")))
      else
        some (String.intercalate "\n" (selection.paths.map
          (fun path =>
            (match path.getLast? with
             | some key => stringifyKeyJS key
             | none => "undefined") ++ ": " ++ stringifyAt json path indentation ++ ",")))
  else none

/-!
## Support lemmas
-/

theorem dropLast_cons_of_ne_nil (k : Key) (p : Path) (h : p ≠ []) :
    (k :: p).dropLast = k :: p.dropLast := by
  cases p with
  | nil => exact absurd rfl h
  | cons b l => rfl

theorem getIn_arr_cons (items : List JValue) (i : Nat) (x : JValue) (rest : Path)
    (h : items.get? i = some x) :
    getIn (.arr items) (Key.idx i :: rest) = getIn x rest := by
  simp only [getIn, h]

theorem getIn_obj_cons (fields : List (String × JValue)) (k : String) (x : JValue)
    (rest : Path) (h : lookupStr fields k = some x) :
    getIn (.obj fields) (Key.str k :: rest) = getIn x rest := by
  simp [getIn, h]

theorem createMultiSelection_type (json : JValue) (state : VState)
    (anchorPath focusPath : Path) (s : Selection)
    (h : createMultiSelection json state anchorPath focusPath = .ok s) :
    s.type = .multi := by
  unfold createMultiSelection at h
  cases hx : expandSelection json state anchorPath focusPath with
  | error e => rw [hx] at h; cases h
  | ok paths => rw [hx] at h; simp at h; rw [← h]

theorem createMultiSelection_self (json : JValue) (state : VState) (p : Path) :
    createMultiSelection json state p p = .ok ⟨.multi, p, p, [p], false⟩ := by
  unfold createMultiSelection expandSelection
  simp

theorem createCaretSelection_ok (t : SelectionType) (p : Path) (s : Selection)
    (h : createCaretSelection t p = .ok s) :
    s = ⟨t, p, p, [], false⟩ := by
  cases t <;> simp [createCaretSelection] at h <;> simp [← h]

theorem createCaretSelection_of_ne_multi (t : SelectionType) (p : Path)
    (h : t ≠ .multi) :
    createCaretSelection t p = .ok ⟨t, p, p, [], false⟩ := by
  cases t <;> first
    | rfl
    | exact absurd rfl h

theorem findSharedPath_comm (a b : Path) : findSharedPath a b = findSharedPath b a := by
  induction a generalizing b with
  | nil => cases b <;> rfl
  | cons x xs ih =>
    cases b with
    | nil => rfl
    | cons y ys =>
      by_cases hxy : x = y
      · subst hxy
        simp [findSharedPath, ih ys]
      · simp [findSharedPath, hxy, Ne.symm hxy]

/-- `expandSelection` gives the same answer (value or error) with its anchor
and focus swapped: the shared prefix, the object key-order window and the
array index window are all symmetric in the two paths. -/
theorem expandSelection_comm (json : JValue) (state : VState) (a b : Path) :
    expandSelection json state a b = expandSelection json state b a := by
  by_cases hab : a = b
  · subst hab; rfl
  · have hba : b ≠ a := Ne.symm hab
    unfold expandSelection
    rw [if_neg hab, if_neg hba, findSharedPath_comm b a]
    by_cases hlen : a.length = (findSharedPath a b).length ∨
        b.length = (findSharedPath a b).length
    · rw [if_pos hlen, if_pos (Or.symm hlen)]
    · rw [if_neg hlen, if_neg (fun hc => hlen (Or.symm hc))]
      dsimp only
      by_cases hobj : isObjectO (getIn json (findSharedPath a b)) = true
      · rw [if_pos hobj, if_pos hobj]
        cases hk : stateKeysAt state (findSharedPath a b) with
        | none => rfl
        | some keys =>
          dsimp only
          cases hka : keyIndexIn keys (a.getD (findSharedPath a b).length (.str "")) with
          | none =>
            cases hkf : keyIndexIn keys (b.getD (findSharedPath a b).length (.str "")) <;> rfl
          | some i =>
            cases hkf : keyIndexIn keys (b.getD (findSharedPath a b).length (.str "")) with
            | none => rfl
            | some j => dsimp only; rw [Nat.min_comm i j, Nat.max_comm i j]
      · rw [if_neg hobj, if_neg hobj]
        by_cases harr : isArrayO (getIn json (findSharedPath a b)) = true
        · rw [if_pos harr, if_pos harr]
          cases hka : keyToNumber (a.getD (findSharedPath a b).length (.str "")) with
          | none =>
            cases hkf : keyToNumber (b.getD (findSharedPath a b).length (.str "")) <;> rfl
          | some i =>
            cases hkf : keyToNumber (b.getD (findSharedPath a b).length (.str "")) with
            | none => rfl
            | some j => dsimp only; rw [Nat.min_comm i j, Nat.max_comm i j]
        · rw [if_neg harr, if_neg harr]

/-!
## Claim theorems
-/

/-- **C5**: `expandRange` is symmetric under anchor/focus swap — whenever it
succeeds, swapping the two paths succeeds with the same list of paths (here
even in the same order, since the window is normalized by `min`/`max`). -/
theorem expandSelection_symm (json : JValue) (state : VState) (a b : Path)
    (ps : List Path) (h : expandSelection json state a b = .ok ps) :
    expandSelection json state b a = .ok ps :=
  (expandSelection_comm json state b a).trans h

/-- Witness for `expandSelection_symm`: over `{"arr": [2, 3, 1], "name": "x"}`,
expanding `["arr", 2], ["arr", 0]` yields the same range as
`["arr", 0], ["arr", 2]`. -/
theorem expandSelection_symm_witness :
    expandSelection (.obj [("arr", .arr [.num 2, .num 3, .num 1]), ("name", .str "x")])
        (.mk true (some ["arr", "name"]) [(.str "arr", .mk true none [])])
        [.str "arr", .idx 2] [.str "arr", .idx 0] =
      .ok [[.str "arr", .idx 0], [.str "arr", .idx 1], [.str "arr", .idx 2]] :=
  expandSelection_symm _ _ [.str "arr", .idx 0] [.str "arr", .idx 2] _ (by decide)

/-- **C4** (amended): on paths that diverge below their shared prefix,
`expandSelection` fails fast — with the `Error` message
`"Failed to create selection"` — whenever the container at the shared prefix
is a scalar, or is an object and either diverging key is absent from the
view-state's stored key order for that container; it never silently returns
an approximated range in these cases. -/
theorem expandSelection_illformed_fails (json : JValue) (state : VState) (a b : Path)
    (hne : a ≠ b)
    (ha : (findSharedPath a b).length < a.length)
    (hb : (findSharedPath a b).length < b.length)
    (hcase :
      (∃ v, getIn json (findSharedPath a b) = some v ∧ isObjectOrArrayV v = false) ∨
      (isObjectO (getIn json (findSharedPath a b)) = true ∧
        ∃ keys, stateKeysAt state (findSharedPath a b) = some keys ∧
          (keyIndexIn keys (a.getD (findSharedPath a b).length (.str "")) = none ∨
           keyIndexIn keys (b.getD (findSharedPath a b).length (.str "")) = none))) :
    expandSelection json state a b = .error "Failed to create selection" := by
  unfold expandSelection
  rw [if_neg hne, if_neg (by
    rintro (hc | hc)
    · exact absurd hc.symm (Nat.ne_of_lt ha)
    · exact absurd hc.symm (Nat.ne_of_lt hb))]
  dsimp only
  rcases hcase with ⟨v, hv, hscalar⟩ | ⟨hobj, keys, hkeys, hidx⟩
  · rw [hv]
    cases v <;> simp_all [isObjectO, isArrayO, isObjectOrArrayV]
  · rw [if_pos hobj, hkeys]
    dsimp only
    rcases hidx with hidx | hidx
    · rw [hidx]
    · rw [hidx]
      cases keyIndexIn keys (a.getD (findSharedPath a b).length (.str "")) <;> rfl

/-- Witness for `expandSelection_illformed_fails`: the paths
`["a", "x"]` and `["a", "y"]` diverge under the scalar `5` in `{"a": 5}`. -/
theorem expandSelection_illformed_fails_witness :
    expandSelection (.obj [("a", .num 5)]) (.mk true (some ["a"]) [])
        [.str "a", .str "x"] [.str "a", .str "y"] =
      .error "Failed to create selection" :=
  expandSelection_illformed_fails _ _ _ _ (by decide) (by decide) (by decide)
    (Or.inl ⟨.num 5, rfl, rfl⟩)

/-- Counterexample to **C4** as stated: the failure is the plain
`Error("Failed to create selection")` of the source, not the
`RangeError("cannot form selection")` the claim names. -/
theorem expandSelection_error_message_counterexample :
    expandSelection (.obj [("a", .num 5)]) (.mk true (some ["a"]) [])
        [.str "a", .str "x"] [.str "a", .str "y"] = .error "Failed to create selection" ∧
    "Failed to create selection" ≠ "cannot form selection" := by
  exact ⟨by decide, by decide⟩

/-- **C10**: `toPartialJson` applied to a virtual insertion-point selection
(type `after` or `inside`) returns `null` — only `key`, `value` and `multi`
selections produce partial-JSON text. -/
theorem toPartialJson_after_inside_none (json : JValue) (selection : Selection)
    (indentation : Nat) (h : selection.type = .after ∨ selection.type = .inside) :
    selectionToPartialJson json selection indentation = none := by
  unfold selectionToPartialJson
  rcases h with h | h <;> rw [h] <;> rfl

/-- Witness for `toPartialJson_after_inside_none` at a concrete input. -/
theorem toPartialJson_after_inside_none_witness :
    selectionToPartialJson (.obj [("a", .num 1)]) ⟨.after, [.str "a"], [.str "a"], [], false⟩ 2
      = none :=
  toPartialJson_after_inside_none _ _ _ (Or.inl rfl)

/-- **C7**: a single-element operation list whose operation is a `replace` or
`move` yields a `value` selection whose anchor and focus are the parsed target
path of the operation, with the edit flag false. -/
theorem createSelectionFromOperations_single (json : JValue) (operation : Op)
    (h : operation.op = "replace" ∨ operation.op = "move") :
    createSelectionFromOperations json [operation] =
      some ⟨.value, parseJSONPointerWithArrayIndices json operation.path,
        parseJSONPointerWithArrayIndices json operation.path, [], false⟩ := by
  unfold createSelectionFromOperations
  rcases h with h | h <;> simp [h]

/-- Witness for `createSelectionFromOperations_single`: a single `replace` at
pointer `/arr/1` over `{"arr": [2, 3, 1], "name": "x"}` selects the value at
`["arr", 1]` with edit mode off. -/
theorem createSelectionFromOperations_single_witness :
    createSelectionFromOperations (.obj [("arr", .arr [.num 2, .num 3, .num 1]), ("name", .str "x")])
        [⟨"replace", "/arr/1", none⟩] =
      some ⟨.value, [.str "arr", .idx 1], [.str "arr", .idx 1], [], false⟩ := by
  have h := createSelectionFromOperations_single
    (.obj [("arr", .arr [.num 2, .num 3, .num 1]), ("name", .str "x")])
    ⟨"replace", "/arr/1", none⟩ (Or.inl rfl)
  rw [h]
  decide

/-- **C6**: Down-then-Up round trip — from a well-formed `value` selection
whose focus has a next visible path whose previous visible path is the
original focus, `getSelectionDown` (not extending) moves to a `value`
selection on the next path and `getSelectionUp` (not extending) returns the
original selection, structurally equal. -/
theorem down_then_up_roundtrip (json : JValue) (state : VState) (p q : Path)
    (hnext : getNextVisiblePath json state p = some q)
    (hprev : getPreviousVisiblePath json state q = some p) :
    getSelectionDown json state ⟨.value, p, p, [], false⟩ false =
      .ok (some ⟨.value, q, q, [], false⟩) ∧
    getSelectionUp json state ⟨.value, q, q, [], false⟩ false =
      .ok (some ⟨.value, p, p, [], false⟩) := by
  constructor
  · unfold getSelectionDown
    simp [hnext]
  · unfold getSelectionUp
    simp [hprev]

/-- Witness for `down_then_up_roundtrip` on `{"a": 1, "b": 2}`: Down from the
`value` selection at `["a"]` reaches `["b"]` and Up returns to `["a"]`. -/
theorem down_then_up_roundtrip_witness :
    getSelectionDown (.obj [("a", .num 1), ("b", .num 2)]) (.mk true (some ["a", "b"]) [])
        ⟨.value, [.str "a"], [.str "a"], [], false⟩ false =
      .ok (some ⟨.value, [.str "b"], [.str "b"], [], false⟩) ∧
    getSelectionUp (.obj [("a", .num 1), ("b", .num 2)]) (.mk true (some ["a", "b"]) [])
        ⟨.value, [.str "b"], [.str "b"], [], false⟩ false =
      .ok (some ⟨.value, [.str "a"], [.str "a"], [], false⟩) :=
  down_then_up_roundtrip _ _ [.str "a"] [.str "b"] (by decide) (by decide)

theorem visiblePathsItems_ne_nil (items : List JValue) (st : VState) (i : Nat) :
    ∀ p ∈ visiblePathsItems items st i, p ≠ [] := by
  induction items generalizing i with
  | nil => intro p hp; simp [visiblePathsItems] at hp
  | cons x rest ih =>
    intro p hp
    simp only [visiblePathsItems, List.mem_append] at hp
    rcases hp with hp | hp
    · obtain ⟨q, -, rfl⟩ := List.mem_map.mp hp
      simp
    · exact ih (i + 1) p hp

theorem visiblePathsFields_ne_nil (fields : List (String × JValue)) (st : VState) :
    ∀ (k : String) (block : List Path),
      lookupStr (visiblePathsFields fields st) k = some block → ∀ p ∈ block, p ≠ [] := by
  induction fields with
  | nil => intro k block h; simp [visiblePathsFields, lookupStr] at h
  | cons kv rest ih =>
    intro k block h p hp
    obtain ⟨k0, x⟩ := kv
    simp only [visiblePathsFields, lookupStr] at h
    by_cases hk0 : k0 = k
    · rw [if_pos hk0] at h
      injection h with h
      subst h
      obtain ⟨q, -, rfl⟩ := List.mem_map.mp hp
      simp
    · rw [if_neg hk0] at h
      exact ih k block h p hp

theorem visiblePathsOf_tail_ne_nil (v : JValue) (st : VState) :
    ∀ p ∈ (visiblePathsOf v st).tail, p ≠ [] := by
  cases v with
  | arr items =>
    intro p hp
    simp only [visiblePathsOf, List.tail_cons] at hp
    by_cases he : st.expanded = true
    · rw [if_pos he] at hp
      exact visiblePathsItems_ne_nil items st 0 p hp
    · rw [if_neg he] at hp
      simp at hp
  | obj fields =>
    intro p hp
    simp only [visiblePathsOf, List.tail_cons] at hp
    by_cases he : st.expanded = true
    · rw [if_pos he] at hp
      obtain ⟨k, -, hmem⟩ := List.mem_flatMap.mp hp
      cases hl : lookupStr (visiblePathsFields fields st) k with
      | none => rw [hl] at hmem; simp at hmem
      | some block =>
        rw [hl] at hmem
        exact visiblePathsFields_ne_nil fields st k block hl p hmem
    · rw [if_neg he] at hp
      simp at hp
  | null => intro p hp; simp [visiblePathsOf] at hp
  | bool b => intro p hp; simp [visiblePathsOf] at hp
  | num n => intro p hp; simp [visiblePathsOf] at hp
  | str s => intro p hp; simp [visiblePathsOf] at hp

/-- The visible path after any path is never the document root: the root is
the head of the visible-path list and every later entry is a non-empty
path. -/
theorem getNextVisiblePath_ne_nil (json : JValue) (state : VState) (p q : Path)
    (h : getNextVisiblePath json state p = some q) : q ≠ [] := by
  unfold getNextVisiblePath at h
  dsimp only at h
  cases hidx : (getVisiblePaths json state).findIdx? (fun x => x = p) with
  | none => rw [hidx] at h; cases h
  | some i =>
    rw [hidx] at h
    dsimp only at h
    have hv : getVisiblePaths json state = [] :: (getVisiblePaths json state).tail := by
      unfold getVisiblePaths
      cases json <;> rfl
    rw [hv, List.get?_cons_succ] at h
    exact visiblePathsOf_tail_ne_nil json state q (List.get?_mem h)

mutual
/-- Soundness of the modelled caret positions relative to one node: no caret
is a `multi`, and a key caret sits at a non-empty relative path whose parent
value inside the node is an object. -/
theorem caretsOf_sound : ∀ (v : JValue) (st : VState), ∀ c ∈ caretsOf v st,
    c.type ≠ .multi ∧
      (c.type = .key → c.path ≠ [] ∧ isObjectO (getIn v c.path.dropLast) = true)
  | .null, st => by
    intro c hc
    simp only [caretsOf, List.mem_singleton] at hc
    subst hc
    exact ⟨by simp, fun hk => by simp at hk⟩
  | .bool b, st => by
    intro c hc
    simp only [caretsOf, List.mem_singleton] at hc
    subst hc
    exact ⟨by simp, fun hk => by simp at hk⟩
  | .num n, st => by
    intro c hc
    simp only [caretsOf, List.mem_singleton] at hc
    subst hc
    exact ⟨by simp, fun hk => by simp at hk⟩
  | .str s, st => by
    intro c hc
    simp only [caretsOf, List.mem_singleton] at hc
    subst hc
    exact ⟨by simp, fun hk => by simp at hk⟩
  | .arr items, st => by
    intro c hc
    simp only [caretsOf, List.mem_cons] at hc
    rcases hc with hc | hc
    · subst hc
      exact ⟨by simp, fun hk => by simp at hk⟩
    · by_cases he : st.expanded = true
      · rw [if_pos he] at hc
        rcases List.mem_cons.mp hc with hc | hc
        · subst hc
          exact ⟨by simp, fun hk => by simp at hk⟩
        · have hs := caretsItems_sound items st 0 c hc
          refine ⟨hs.1, fun hk => ?_⟩
          obtain ⟨j, p, x, hpath, hpne, hget, hobj⟩ := hs.2 hk
          rw [hpath]
          refine ⟨by simp, ?_⟩
          rw [Nat.zero_add, dropLast_cons_of_ne_nil _ _ hpne,
            getIn_arr_cons items j x _ hget]
          exact hobj
      · rw [if_neg he] at hc
        simp at hc
  | .obj fields, st => by
    intro c hc
    simp only [caretsOf, List.mem_cons] at hc
    rcases hc with hc | hc
    · subst hc
      exact ⟨by simp, fun hk => by simp at hk⟩
    · by_cases he : st.expanded = true
      · rw [if_pos he] at hc
        rcases List.mem_cons.mp hc with hc | hc
        · subst hc
          exact ⟨by simp, fun hk => by simp at hk⟩
        · obtain ⟨k, -, hmem⟩ := List.mem_flatMap.mp hc
          cases hl : lookupStr (caretsFields fields st) k with
          | none => rw [hl] at hmem; simp at hmem
          | some block =>
            rw [hl] at hmem
            have hs := caretsFields_sound fields st k block hl c hmem
            refine ⟨hs.1, fun hk2 => ?_⟩
            obtain ⟨hpne, hdis⟩ := hs.2 hk2
            refine ⟨hpne, ?_⟩
            rcases hdis with hpath | ⟨p, x, hpath, hpne2, hlook, hobj⟩
            · rw [hpath]
              simp [getIn, isObjectO]
            · rw [hpath, dropLast_cons_of_ne_nil _ _ hpne2,
                getIn_obj_cons fields k x _ hlook]
              exact hobj
      · rw [if_neg he] at hc
        simp at hc

/-- Soundness of the caret blocks of array items from index `i` on. -/
theorem caretsItems_sound : ∀ (items : List JValue) (st : VState) (i : Nat),
    ∀ c ∈ caretsItems items st i, c.type ≠ .multi ∧
      (c.type = .key → ∃ j p x, c.path = Key.idx (i + j) :: p ∧ p ≠ [] ∧
        items.get? j = some x ∧ isObjectO (getIn x p.dropLast) = true)
  | [], st, i => by
    intro c hc
    simp [caretsItems] at hc
  | x :: rest, st, i => by
    intro c hc
    simp only [caretsItems, List.mem_append, List.mem_cons] at hc
    rcases hc with hc | hc | hc
    · obtain ⟨c0, hc0, rfl⟩ := List.mem_map.mp hc
      have hs := caretsOf_sound x (st.childAt (.idx i)) c0 hc0
      refine ⟨by simpa using hs.1, fun hk => ?_⟩
      obtain ⟨hpne, hobj⟩ := hs.2 (by simpa using hk)
      exact ⟨0, c0.path, x, by simp, hpne, by simp, hobj⟩
    · subst hc
      exact ⟨by simp, fun hk => by simp at hk⟩
    · have hs := caretsItems_sound rest st (i + 1) c hc
      refine ⟨hs.1, fun hk => ?_⟩
      obtain ⟨j, p, x2, hpath, hpne, hget, hobj⟩ := hs.2 hk
      refine ⟨j + 1, p, x2, ?_, hpne, by simpa using hget, hobj⟩
      rw [hpath]
      have hji : i + 1 + j = i + (j + 1) := by omega
      rw [hji]

/-- Soundness of the caret block stored for key `k` among the fields: its
members are the key caret of `k`, the lifted carets of the field's value and
the after caret of `k`. -/
theorem caretsFields_sound : ∀ (fields : List (String × JValue)) (st : VState)
    (k : String) (block : List CaretPosition),
    lookupStr (caretsFields fields st) k = some block →
    ∀ c ∈ block, c.type ≠ .multi ∧
      (c.type = .key → c.path ≠ [] ∧
        (c.path = [Key.str k] ∨ ∃ p x, c.path = Key.str k :: p ∧ p ≠ [] ∧
          lookupStr fields k = some x ∧ isObjectO (getIn x p.dropLast) = true))
  | [], st, k, block => by
    intro h
    simp [caretsFields, lookupStr] at h
  | (k0, x) :: rest, st, k, block => by
    intro h c hc
    simp only [caretsFields, lookupStr] at h
    by_cases hk0 : k0 = k
    · rw [if_pos hk0] at h
      injection h with h
      subst h
      rcases List.mem_cons.mp hc with hc | hc
      · subst hc
        exact ⟨by simp, fun _ => ⟨by simp, Or.inl (by rw [hk0])⟩⟩
      · rcases List.mem_append.mp hc with hc | hc
        · obtain ⟨c0, hc0, rfl⟩ := List.mem_map.mp hc
          have hs := caretsOf_sound x (st.childAt (.str k0)) c0 hc0
          refine ⟨by simpa using hs.1, fun hk2 => ?_⟩
          obtain ⟨hpne, hobj⟩ := hs.2 (by simpa using hk2)
          refine ⟨by simp, Or.inr ⟨c0.path, x, by rw [hk0], hpne, ?_, hobj⟩⟩
          simp [lookupStr, if_pos hk0]
        · simp only [List.mem_singleton] at hc
          subst hc
          exact ⟨by simp, fun hk2 => by simp at hk2⟩
    · rw [if_neg hk0] at h
      have hs := caretsFields_sound rest st k block h c hc
      refine ⟨hs.1, fun hk2 => ?_⟩
      obtain ⟨hpne, hdis⟩ := hs.2 hk2
      refine ⟨hpne, ?_⟩
      rcases hdis with hp | ⟨p, x2, hp, hpne2, hlook, hobj⟩
      · exact Or.inl hp
      · exact Or.inr ⟨p, x2, hp, hpne2, by simp [lookupStr, if_neg hk0, hlook], hobj⟩
end

/-- Soundness of the modelled document caret positions: no caret is a
`multi`, and every key caret has a non-empty path whose parent in the
document is an object (in particular not an array and not the root). -/
theorem caretPositions_sound (json : JValue) (state : VState) :
    ∀ c ∈ getVisibleCaretPositions json state, c.type ≠ .multi ∧
      (c.type = .key → c.path ≠ [] ∧ isObjectO (getIn json c.path.dropLast) = true) :=
  caretsOf_sound json state

/-- **C8**: when neither the single replace/move rule nor the all-move rename
rule matches, `createSelectionFromOperations` collects the target paths of
every operation that is not a `test`, not a `remove` and not a no-op `move`
(equal source and destination): none collected means no selection (`none`,
not an error); otherwise a `multi` selection whose paths are exactly the
collected paths in operation order, anchored at the first and focused at the
last, without re-deriving a contiguous sibling range. -/
theorem createSelectionFromOperations_fallback (json : JValue) (operations : List Op)
    (h1 : ¬ ∃ operation, operations = [operation] ∧
      (operation.op = "replace" ∨ operation.op = "move"))
    (h2 : ¬ ∃ firstOp otherOps, operations = firstOp :: otherOps ∧
      (∀ o ∈ operations, o.op = "move") ∧
      firstOp.fromPtr ≠ some firstOp.path ∧ (∀ o ∈ otherOps, o.fromPtr = some o.path)) :
    createSelectionFromOperations json operations =
      (if (operationsMultiPaths json operations).isEmpty then none
       else some ⟨.multi, (operationsMultiPaths json operations).headD [],
        (operationsMultiPaths json operations).getLastD [],
        operationsMultiPaths json operations, false⟩) := by
  have hgoal : createSelectionFromOperations json operations =
      operationsFallbackSelection json operations := by
    unfold createSelectionFromOperations
    cases operations with
    | nil =>
      unfold operationsRenameOrFallback
      rfl
    | cons firstOp rest =>
      cases rest with
      | nil =>
        by_cases hop : firstOp.op = "replace" ∨ firstOp.op = "move"
        · exact absurd ⟨firstOp, rfl, hop⟩ h1
        · dsimp only
          rw [if_neg hop]
          unfold operationsRenameOrFallback
          dsimp only
          by_cases hall : ∀ o ∈ firstOp :: ([] : List Op), o.op = "move"
          · exact absurd (Or.inr (hall firstOp (List.mem_cons_self _ _))) hop
          · rw [if_neg hall]
      | cons secondOp rest2 =>
        unfold operationsRenameOrFallback
        dsimp only
        by_cases hall : ∀ o ∈ firstOp :: secondOp :: rest2, o.op = "move"
        · rw [if_pos hall]
          by_cases hren : firstOp.fromPtr ≠ some firstOp.path ∧
              (∀ o ∈ secondOp :: rest2, o.fromPtr = some o.path)
          · exact absurd ⟨firstOp, secondOp :: rest2, rfl, hall, hren.1, hren.2⟩ h2
          · rw [if_neg hren]
        · rw [if_neg hall]
  rw [hgoal]
  rfl

/-- Witness for `createSelectionFromOperations_fallback`: two `add`
operations yield a `multi` selection over both target paths, in order. -/
theorem createSelectionFromOperations_fallback_witness :
    createSelectionFromOperations (.obj [("a", .num 1)])
        [⟨"add", "/a", none⟩, ⟨"add", "/b", none⟩] =
      some ⟨.multi, [.str "a"], [.str "b"], [[.str "a"], [.str "b"]], false⟩ := by
  have h := createSelectionFromOperations_fallback (.obj [("a", .num 1)])
    [⟨"add", "/a", none⟩, ⟨"add", "/b", none⟩]
    (by rintro ⟨op, heq, -⟩; simp at heq)
    (by
      rintro ⟨f, o, -, hall, -, -⟩
      exact absurd (hall ⟨"add", "/a", none⟩ (List.mem_cons_self _ _)) (by decide))
  rw [h]
  decide

/-- **C9**: a `multi` selection under an array parent serializes, for a single
selected path, to that element's pretty-printed JSON with no trailing
separator, and for several paths to each element's pretty-printed JSON
followed by a literal comma, newline-joined, in range order. -/
theorem toPartialJson_multi_array (json : JValue) (selection : Selection)
    (indentation : Nat) (items : List JValue)
    (htype : selection.type = .multi)
    (hne : selection.focusPath ≠ [])
    (hparent : getIn json selection.focusPath.dropLast = some (.arr items)) :
    (∀ p, selection.paths = [p] →
      selectionToPartialJson json selection indentation =
        (getIn json p).map (fun item => jsonStringify item indentation)) ∧
    (2 ≤ selection.paths.length →
      selectionToPartialJson json selection indentation =
        some (String.intercalate "\n" (selection.paths.map
          (fun path => stringifyAt json path indentation ++ ",")))) := by
  have hiseb : selection.focusPath.isEmpty = false := by
    cases h : selection.focusPath with
    | nil => exact absurd h hne
    | cons a l => rfl
  have hpar : getParentPath selection = selection.focusPath.dropLast := by
    unfold getParentPath
    rw [htype]
    rfl
  constructor
  · intro p hp
    unfold selectionToPartialJson
    rw [htype, hiseb, hpar]
    dsimp only
    rw [hparent]
    simp [hp, isArrayO]
  · intro hlen
    have hone : selection.paths.length ≠ 1 := by omega
    unfold selectionToPartialJson
    rw [htype, hiseb, hpar]
    dsimp only
    rw [hparent]
    simp [hone, isArrayO]

/-- Witness for `toPartialJson_multi_array`: over
`{"arr": [2, 3, 1], "name": "x"}` with indent 2, the `multi` selection on
`[["arr", 0], ["arr", 1]]` serializes to `"2,\n3,"`, and the single-path
`multi` on `[["arr", 0]]` to `"2"` with no trailing comma. -/
theorem toPartialJson_multi_array_witness :
    selectionToPartialJson (.obj [("arr", .arr [.num 2, .num 3, .num 1]), ("name", .str "x")])
        ⟨.multi, [.str "arr", .idx 0], [.str "arr", .idx 1],
          [[.str "arr", .idx 0], [.str "arr", .idx 1]], false⟩ 2 = some "2,\n3," ∧
    selectionToPartialJson (.obj [("arr", .arr [.num 2, .num 3, .num 1]), ("name", .str "x")])
        ⟨.multi, [.str "arr", .idx 0], [.str "arr", .idx 0],
          [[.str "arr", .idx 0]], false⟩ 2 = some "2" := by
  constructor
  · have h := (toPartialJson_multi_array
      (.obj [("arr", .arr [.num 2, .num 3, .num 1]), ("name", .str "x")])
      ⟨.multi, [.str "arr", .idx 0], [.str "arr", .idx 1],
        [[.str "arr", .idx 0], [.str "arr", .idx 1]], false⟩ 2
      [.num 2, .num 3, .num 1] rfl (by decide) rfl).2 (by decide)
    rw [h]
    decide
  · have h := (toPartialJson_multi_array
      (.obj [("arr", .arr [.num 2, .num 3, .num 1]), ("name", .str "x")])
      ⟨.multi, [.str "arr", .idx 0], [.str "arr", .idx 0],
        [[.str "arr", .idx 0]], false⟩ 2
      [.num 2, .num 3, .num 1] rfl (by decide) rfl).1 [.str "arr", .idx 0] rfl
    rw [h]
    decide

theorem findCaretAndSiblings_previous_mem (json : JValue) (state : VState)
    (selection : Selection) (prev : CaretPosition)
    (h : (findCaretAndSiblings json state selection).previous = some prev) :
    prev ∈ getVisibleCaretPositions json state := by
  unfold findCaretAndSiblings at h
  dsimp only at h
  cases hidx : (getVisibleCaretPositions json state).findIdx?
      (fun caret => decide (caret.path = selection.focusPath ∧ caret.type = selection.type)) with
  | none => rw [hidx] at h; cases h
  | some index =>
    rw [hidx] at h
    dsimp only at h
    by_cases hpos : index > 0
    · rw [if_pos hpos] at h
      exact List.get?_mem h
    · rw [if_neg hpos] at h
      cases h

theorem findCaretAndSiblings_next_mem (json : JValue) (state : VState)
    (selection : Selection) (next : CaretPosition)
    (h : (findCaretAndSiblings json state selection).next = some next) :
    next ∈ getVisibleCaretPositions json state := by
  unfold findCaretAndSiblings at h
  dsimp only at h
  cases hidx : (getVisibleCaretPositions json state).findIdx?
      (fun caret => decide (caret.path = selection.focusPath ∧ caret.type = selection.type)) with
  | none => rw [hidx] at h; cases h
  | some index =>
    rw [hidx] at h
    dsimp only at h
    exact List.get?_mem h

/-- **C3** (amended): navigation at a document boundary yields no change and
Left/Right (not extending) never throw. Up and Down return the explicit
"no selection change" signal (`none`) whenever no previous/next visible path
exists; Right (not extending) from a non-`multi` selection at the last caret
stop returns "no change"; Left (not extending) from a non-`multi` selection at
the first caret stop returns "no change" unless the selection is a `value`
whose computed parent container is an array — at the root of an array document
Left instead converts the selection to a `multi` at the same path. -/
theorem boundary_no_change (json : JValue) (state : VState) :
    (∀ (selection : Selection) (keep : Bool),
      getPreviousVisiblePath json state selection.focusPath = none →
      getSelectionUp json state selection keep = .ok none) ∧
    (∀ (selection : Selection) (keep : Bool),
      getNextVisiblePath json state selection.focusPath = none →
      getSelectionDown json state selection keep = .ok none) ∧
    (∀ (selection : Selection) (c : CaretPosition),
      selection.type ≠ .multi →
      (findCaretAndSiblings json state selection).caret = some c →
      (findCaretAndSiblings json state selection).next = none →
      getSelectionRight json state selection false = .ok none) ∧
    (∀ (selection : Selection) (c : CaretPosition),
      selection.type ≠ .multi →
      ¬ (selection.type = .value ∧ isArrayO (getIn json selection.focusPath.dropLast) = true) →
      (findCaretAndSiblings json state selection).caret = some c →
      (findCaretAndSiblings json state selection).previous = none →
      getSelectionLeft json state selection false = .ok none) ∧
    (∀ (selection : Selection) (e : String),
      getSelectionLeft json state selection false ≠ .error e ∧
      getSelectionRight json state selection false ≠ .error e) := by
  refine ⟨?_, ?_, ?_, ?_, ?_⟩
  · intro selection keep h
    unfold getSelectionUp
    rw [h]
  · intro selection keep h
    unfold getSelectionDown
    rw [h]
  · intro selection c hmulti hcaret hnext
    unfold getSelectionRight
    dsimp only
    rw [hcaret, hnext, if_neg (by simp)]
    dsimp only
    rw [if_neg hmulti]
  · intro selection c hmulti hval hcaret hprev
    unfold getSelectionLeft
    dsimp only
    rw [hcaret, hprev, if_neg (by simp)]
    dsimp only
    rw [if_neg hval, if_neg (fun hc => hmulti hc.1)]
  · intro selection e
    constructor
    · unfold getSelectionLeft
      dsimp only
      rw [if_neg (by simp)]
      cases hcaret : (findCaretAndSiblings json state selection).caret with
      | some c =>
        cases hprev : (findCaretAndSiblings json state selection).previous with
        | some prev =>
          dsimp only
          have hmem := findCaretAndSiblings_previous_mem json state selection prev hprev
          have hsound := (caretPositions_sound json state prev hmem).1
          rw [createCaretSelection_of_ne_multi prev.type prev.path hsound]
          simp [Except.map]
        | none =>
          dsimp only
          by_cases hva : selection.type = .value ∧
              isArrayO (getIn json selection.focusPath.dropLast) = true
          · rw [if_pos hva, createMultiSelection_self]
            simp [Except.map]
          · rw [if_neg hva]
            by_cases hm : selection.type = .multi ∧
                ¬ isArrayO (getIn json selection.focusPath.dropLast) = true
            · rw [if_pos hm]
              simp [createCaretSelection, Except.map]
            · rw [if_neg hm]
              simp
      | none =>
        dsimp only
        by_cases hva : selection.type = .value ∧
            isArrayO (getIn json selection.focusPath.dropLast) = true
        · rw [if_pos hva, createMultiSelection_self]
          simp [Except.map]
        · rw [if_neg hva]
          by_cases hm : selection.type = .multi ∧
              ¬ isArrayO (getIn json selection.focusPath.dropLast) = true
          · rw [if_pos hm]
            simp [createCaretSelection, Except.map]
          · rw [if_neg hm]
            simp
    · unfold getSelectionRight
      dsimp only
      rw [if_neg (by simp)]
      cases hcaret : (findCaretAndSiblings json state selection).caret with
      | some c =>
        cases hnext : (findCaretAndSiblings json state selection).next with
        | some next =>
          dsimp only
          have hmem := findCaretAndSiblings_next_mem json state selection next hnext
          have hsound := (caretPositions_sound json state next hmem).1
          rw [createCaretSelection_of_ne_multi next.type next.path hsound]
          simp [Except.map]
        | none =>
          dsimp only
          by_cases hm : selection.type = .multi
          · rw [if_pos hm]
            simp [createCaretSelection, Except.map]
          · rw [if_neg hm]
            simp
      | none =>
        dsimp only
        by_cases hm : selection.type = .multi
        · rw [if_pos hm]
          simp [createCaretSelection, Except.map]
        · rw [if_neg hm]
          simp

/-- Witness for `boundary_no_change`: in `{"arr": [2, 3, 1], "name": "x"}`
the path `["name"]` is the last visible path and its value caret at the last
caret stop; Down returns "no change" and Right returns "no change". -/
theorem boundary_no_change_witness :
    getSelectionDown (.obj [("arr", .arr [.num 2, .num 3, .num 1]), ("name", .str "x")])
        (.mk true (some ["arr", "name"]) [(.str "arr", .mk true none [])])
        ⟨.value, [.str "name"], [.str "name"], [], false⟩ false = .ok none ∧
    getSelectionRight (.obj [("arr", .arr [.num 2, .num 3, .num 1]), ("name", .str "x")])
        (.mk true (some ["arr", "name"]) [(.str "arr", .mk true none [])])
        ⟨.after, [.str "name"], [.str "name"], [], false⟩ false = .ok none := by
  constructor
  · exact (boundary_no_change _ _).2.1 ⟨.value, [.str "name"], [.str "name"], [], false⟩
      false (by decide)
  · exact (boundary_no_change _ _).2.2.1 ⟨.after, [.str "name"], [.str "name"], [], false⟩
      ⟨[.str "name"], .after⟩ (by decide) (by decide) (by decide)

/-- Counterexample to **C3** as stated: on the array document `[1]` the root
`value` selection sits at the very first caret stop, yet Left (not extending)
returns a changed selection — a `multi` at the root — instead of the
"no change" signal. -/
theorem boundary_no_change_counterexample :
    getSelectionLeft (.arr [.num 1]) (.mk true none []) ⟨.value, [], [], [], false⟩ false =
      .ok (some ⟨.multi, [], [], [[]], false⟩) ∧
    getSelectionLeft (.arr [.num 1]) (.mk true none []) ⟨.value, [], [], [], false⟩ false ≠
      .ok none ∧
    (findCaretAndSiblings (.arr [.num 1]) (.mk true none [])
      ⟨.value, [], [], [], false⟩).caret = some ⟨[], .value⟩ ∧
    (findCaretAndSiblings (.arr [.num 1]) (.mk true none [])
      ⟨.value, [], [], [], false⟩).previous = none := by
  refine ⟨by decide, by decide, by decide, by decide⟩

/-- **C2** (amended): the anchor under extending Up/Down. Up-extend on an
`after`/`inside` selection returns a single-node `multi` at the selection's
anchorPath (for a well-formed `after`/`inside`, anchorPath equals focusPath,
so this normalizes the anchor to the current focus). Down-extend on an
`after` selection instead anchors the `multi` at the next visible path past
the collapsed focus subtree, and on an `inside` selection at the next visible
path — not at the current focus path. Every other selection type passes its
original anchorPath into range expansion, and the returned `multi` keeps the
original anchorPath exactly when it is an endpoint of the expanded range
(stated here for the anchor being the first element). -/
theorem extend_anchor_normalization (json : JValue) (state : VState)
    (selection : Selection) :
    ((selection.type = .after ∨ selection.type = .inside) →
      ∀ q, getPreviousVisiblePath json state selection.focusPath = some q →
      getSelectionUp json state selection true =
        .ok (some ⟨.multi, selection.anchorPath, selection.anchorPath,
          [selection.anchorPath], false⟩)) ∧
    (selection.type = .after →
      ∀ q r, getNextVisiblePath json state selection.focusPath = some q →
      getNextVisiblePath json (collapsedFocusState json state selection.focusPath)
          selection.focusPath = some r →
      getSelectionDown json state selection true =
        .ok (some ⟨.multi, r, r, [r], false⟩)) ∧
    (selection.type = .inside →
      ∀ q r, getNextVisiblePath json state selection.focusPath = some q →
      getNextVisiblePath json (collapsedFocusState json state selection.focusPath)
          selection.focusPath = some r →
      getSelectionDown json state selection true =
        .ok (some ⟨.multi, q, q, [q], false⟩)) ∧
    (selection.type ≠ .after → selection.type ≠ .inside →
      (∀ q, getPreviousVisiblePath json state selection.focusPath = some q →
        getSelectionUp json state selection true =
          (createMultiSelection json state selection.anchorPath q).map some) ∧
      (∀ q r, getNextVisiblePath json state selection.focusPath = some q →
        getNextVisiblePath json (collapsedFocusState json state selection.focusPath)
            selection.focusPath = some r →
        getSelectionDown json state selection true =
          (createMultiSelection json state selection.anchorPath r).map some)) ∧
    (∀ (a f : Path) (ps : List Path), expandSelection json state a f = .ok ps →
      ps.head? = some a →
      createMultiSelection json state a f =
        .ok ⟨.multi, a, (ps.getLast?).getD [], ps, false⟩) := by
  refine ⟨?_, ?_, ?_, ?_, ?_⟩
  · intro htype q hq
    unfold getSelectionUp
    rw [hq]
    dsimp only
    rw [if_pos htype, createMultiSelection_self]
    rfl
  · intro htype q r hq hr
    unfold getSelectionDown
    rw [hq]
    dsimp only
    rw [hr]
    dsimp only
    rw [if_pos htype, createMultiSelection_self]
    rfl
  · intro htype q r hq hr
    unfold getSelectionDown
    rw [hq]
    dsimp only
    rw [hr]
    dsimp only
    have hna : ¬ (selection.type = SelectionType.after) := by rw [htype]; simp
    rw [if_neg hna, if_pos htype, createMultiSelection_self]
    rfl
  · intro hafter hinside
    constructor
    · intro q hq
      unfold getSelectionUp
      rw [hq]
      dsimp only
      have h1 : ¬ (selection.type = SelectionType.after ∨
          selection.type = SelectionType.inside) := by
        rintro (h | h)
        · exact hafter h
        · exact hinside h
      rw [if_neg h1]
      rfl
    · intro q r hq hr
      unfold getSelectionDown
      rw [hq]
      dsimp only
      rw [hr]
      dsimp only
      rw [if_neg hafter, if_neg hinside]
      rfl
  · intro a f ps hexp hhead
    unfold createMultiSelection
    rw [hexp]
    dsimp only
    rw [if_pos (Or.inr hhead), if_pos (Or.inr hhead), hhead]
    rfl

/-- Witness for `extend_anchor_normalization`: on `{"a": 1, "b": 2}`,
Up-extend from the `after` selection at `["b"]` yields the single-node
`multi` at `["b"]` (its own anchor, which equals its focus). -/
theorem extend_anchor_normalization_witness :
    getSelectionUp (.obj [("a", .num 1), ("b", .num 2)]) (.mk true (some ["a", "b"]) [])
        ⟨.after, [.str "b"], [.str "b"], [], false⟩ true =
      .ok (some ⟨.multi, [.str "b"], [.str "b"], [[.str "b"]], false⟩) :=
  (extend_anchor_normalization (.obj [("a", .num 1), ("b", .num 2)])
      (.mk true (some ["a", "b"]) [])
      ⟨.after, [.str "b"], [.str "b"], [], false⟩).1
    (Or.inl rfl) [.str "a"] (by decide)

/-- Counterexample to **C2** as stated: on `{"a": 1, "b": 2}`, Down-extend
from the `after` selection at `["a"]` (a further visible path, `["b"]`,
exists) returns a `multi` anchored at `["b"]`, not at the selection's current
focus path `["a"]`. -/
theorem extend_anchor_normalization_counterexample :
    getSelectionDown (.obj [("a", .num 1), ("b", .num 2)]) (.mk true (some ["a", "b"]) [])
        ⟨.after, [.str "a"], [.str "a"], [], false⟩ true =
      .ok (some ⟨.multi, [.str "b"], [.str "b"], [[.str "b"]], false⟩) ∧
    ([Key.str "b"] : Path) ≠ [Key.str "a"] := by
  refine ⟨by decide, by decide⟩

theorem mapSome_ok (x : Except String Selection) (r : Selection)
    (h : x.map some = .ok (some r)) : x = .ok r := by
  cases x with
  | error e => simp [Except.map] at h
  | ok s =>
    simp [Except.map] at h
    rw [h]

theorem isArrayO_of_isObjectO (v : Option JValue) (h : isObjectO v = true) :
    isArrayO v = false := by
  cases v with
  | none => simp [isObjectO] at h
  | some x => cases x <;> simp_all [isObjectO, isArrayO]

theorem operationsFallbackSelection_type (json : JValue) (operations : List Op)
    (r : Selection) (h : operationsFallbackSelection json operations = some r) :
    r.type = .multi := by
  unfold operationsFallbackSelection at h
  dsimp only at h
  by_cases hemp : (operationsMultiPaths json operations).isEmpty = true
  · rw [if_pos hemp] at h
    cases h
  · rw [if_neg hemp] at h
    injection h with h
    rw [← h]

/-- **C1** (amended): the key-selection invariant. Every `key` selection
returned by `getSelectionUp` or `getSelectionDown` has a non-empty focusPath
whose parent value in `json` is not an array. The same holds for
`getSelectionLeft` provided the input selection's focusPath is non-empty (on
a `multi` selection at the document root of a non-array document, Left
returns a `key` selection for the root). For `createSelectionFromOperations`
it holds provided the first operation's parsed target path is non-empty and
has a non-array parent (an all-`move` list writing into an array or to the
root pointer makes the rename branch produce a `key` selection there). -/
theorem key_selection_invariant (json : JValue) (state : VState) :
    (∀ (selection : Selection) (keep : Bool) (r : Selection),
      getSelectionUp json state selection keep = .ok (some r) → r.type = .key →
      r.focusPath ≠ [] ∧ isArrayO (getIn json r.focusPath.dropLast) = false) ∧
    (∀ (selection : Selection) (keep : Bool) (r : Selection),
      getSelectionDown json state selection keep = .ok (some r) → r.type = .key →
      r.focusPath ≠ [] ∧ isArrayO (getIn json r.focusPath.dropLast) = false) ∧
    (∀ (selection : Selection) (keep : Bool) (r : Selection),
      selection.focusPath ≠ [] →
      getSelectionLeft json state selection keep = .ok (some r) → r.type = .key →
      r.focusPath ≠ [] ∧ isArrayO (getIn json r.focusPath.dropLast) = false) ∧
    (∀ (operations : List Op) (firstOp : Op) (rest : List Op) (r : Selection),
      operations = firstOp :: rest →
      parseJSONPointerWithArrayIndices json firstOp.path ≠ [] →
      isArrayO (getIn json
        (parseJSONPointerWithArrayIndices json firstOp.path).dropLast) = false →
      createSelectionFromOperations json operations = some r → r.type = .key →
      r.focusPath ≠ [] ∧ isArrayO (getIn json r.focusPath.dropLast) = false) := by
  refine ⟨?_, ?_, ?_, ?_⟩
  · intro selection keep r h hk
    unfold getSelectionUp at h
    cases hprev : getPreviousVisiblePath json state selection.focusPath with
    | none => rw [hprev] at h; cases h
    | some previousPath =>
      rw [hprev] at h
      dsimp only at h
      by_cases hkeep : keep = true
      · rw [if_pos hkeep] at h
        by_cases hai : selection.type = .after ∨ selection.type = .inside
        · rw [if_pos hai] at h
          have := createMultiSelection_type _ _ _ _ r (mapSome_ok _ r h)
          rw [this] at hk
          cases hk
        · rw [if_neg hai] at h
          have := createMultiSelection_type _ _ _ _ r (mapSome_ok _ r h)
          rw [this] at hk
          cases hk
      · rw [if_neg hkeep] at h
        by_cases hkey : selection.type = .key
        · rw [if_pos hkey] at h
          by_cases hcond : (isArrayO (getIn json previousPath.dropLast)
              || previousPath.isEmpty) = true
          · rw [if_pos hcond] at h
            injection h with h
            injection h with h
            rw [← h] at hk
            cases hk
          · rw [if_neg hcond] at h
            injection h with h
            injection h with h
            rw [← h]
            dsimp only
            rw [Bool.or_eq_true] at hcond
            push_neg at hcond
            refine ⟨?_, ?_⟩
            · intro hnil
              exact hcond.2 (by rw [hnil]; rfl)
            · exact Bool.not_eq_true _ |>.mp hcond.1
        · rw [if_neg hkey] at h
          by_cases hval : selection.type = .value
          · rw [if_pos hval] at h
            injection h with h
            injection h with h
            rw [← h] at hk
            cases hk
          · rw [if_neg hval] at h
            by_cases hafter : selection.type = .after
            · rw [if_pos hafter] at h
              have := createMultiSelection_type _ _ _ _ r (mapSome_ok _ r h)
              rw [this] at hk
              cases hk
            · rw [if_neg hafter] at h
              by_cases hinside : selection.type = .inside
              · rw [if_pos hinside] at h
                have := createMultiSelection_type _ _ _ _ r (mapSome_ok _ r h)
                rw [this] at hk
                cases hk
              · rw [if_neg hinside] at h
                have := createMultiSelection_type _ _ _ _ r (mapSome_ok _ r h)
                rw [this] at hk
                cases hk
  · intro selection keep r h hk
    unfold getSelectionDown at h
    cases hnext : getNextVisiblePath json state selection.focusPath with
    | none => rw [hnext] at h; cases h
    | some nextPath =>
      rw [hnext] at h
      dsimp only at h
      by_cases hkeep : keep = true
      · rw [if_pos hkeep] at h
        cases hnext2 : getNextVisiblePath json
            (collapsedFocusState json state selection.focusPath) selection.focusPath with
        | none => rw [hnext2] at h; cases h
        | some nextPathAfter =>
          rw [hnext2] at h
          dsimp only at h
          by_cases hafter : selection.type = .after
          · rw [if_pos hafter] at h
            have := createMultiSelection_type _ _ _ _ r (mapSome_ok _ r h)
            rw [this] at hk
            cases hk
          · rw [if_neg hafter] at h
            by_cases hinside : selection.type = .inside
            · rw [if_pos hinside] at h
              have := createMultiSelection_type _ _ _ _ r (mapSome_ok _ r h)
              rw [this] at hk
              cases hk
            · rw [if_neg hinside] at h
              have := createMultiSelection_type _ _ _ _ r (mapSome_ok _ r h)
              rw [this] at hk
              cases hk
      · rw [if_neg hkeep] at h
        by_cases hkey : selection.type = .key
        · rw [if_pos hkey] at h
          by_cases hcond : isArrayO (getIn json nextPath.dropLast) = true
          · rw [if_pos hcond] at h
            injection h with h
            injection h with h
            rw [← h] at hk
            cases hk
          · rw [if_neg hcond] at h
            injection h with h
            injection h with h
            rw [← h]
            dsimp only
            exact ⟨getNextVisiblePath_ne_nil json state selection.focusPath nextPath hnext,
              Bool.not_eq_true _ |>.mp hcond⟩
        · rw [if_neg hkey] at h
          by_cases hval : selection.type = .value
          · rw [if_pos hval] at h
            injection h with h
            injection h with h
            rw [← h] at hk
            cases hk
          · rw [if_neg hval] at h
            by_cases hinside : selection.type = .inside
            · rw [if_pos hinside] at h
              have := createMultiSelection_type _ _ _ _ r (mapSome_ok _ r h)
              rw [this] at hk
              cases hk
            · rw [if_neg hinside] at h
              have := createMultiSelection_type _ _ _ _ r (mapSome_ok _ r h)
              rw [this] at hk
              cases hk
  · intro selection keep r hfocus h hk
    unfold getSelectionLeft at h
    dsimp only at h
    by_cases hkeep : keep = true
    · rw [if_pos hkeep] at h
      by_cases hm : selection.type ≠ .multi
      · rw [if_pos hm] at h
        have := createMultiSelection_type _ _ _ _ r (mapSome_ok _ r h)
        rw [this] at hk
        cases hk
      · rw [if_neg hm] at h
        cases h
    · rw [if_neg hkeep] at h
      cases hcaret : (findCaretAndSiblings json state selection).caret with
      | some c =>
        cases hprev : (findCaretAndSiblings json state selection).previous with
        | some prev =>
          rw [hcaret, hprev] at h
          dsimp only at h
          have hok := createCaretSelection_ok prev.type prev.path r (mapSome_ok _ r h)
          have hmem := findCaretAndSiblings_previous_mem json state selection prev hprev
          have hsound := caretPositions_sound json state prev hmem
          rw [hok] at hk
          dsimp only at hk
          obtain ⟨hpne, hobj⟩ := hsound.2 hk
          rw [hok]
          exact ⟨hpne, isArrayO_of_isObjectO _ hobj⟩
        | none =>
          rw [hcaret, hprev] at h
          dsimp only at h
          by_cases hva : selection.type = .value ∧
              isArrayO (getIn json selection.focusPath.dropLast) = true
          · rw [if_pos hva] at h
            have := createMultiSelection_type _ _ _ _ r (mapSome_ok _ r h)
            rw [this] at hk
            cases hk
          · rw [if_neg hva] at h
            by_cases hmu : selection.type = .multi ∧
                ¬ isArrayO (getIn json selection.focusPath.dropLast) = true
            · rw [if_pos hmu] at h
              have hok := createCaretSelection_ok .key selection.focusPath r
                (mapSome_ok _ r h)
              rw [hok]
              exact ⟨hfocus, Bool.not_eq_true _ |>.mp hmu.2⟩
            · rw [if_neg hmu] at h
              cases h
      | none =>
        rw [hcaret] at h
        cases hprev : (findCaretAndSiblings json state selection).previous with
        | some prev =>
          rw [hprev] at h
          dsimp only at h
          by_cases hva : selection.type = .value ∧
              isArrayO (getIn json selection.focusPath.dropLast) = true
          · rw [if_pos hva] at h
            have := createMultiSelection_type _ _ _ _ r (mapSome_ok _ r h)
            rw [this] at hk
            cases hk
          · rw [if_neg hva] at h
            by_cases hmu : selection.type = .multi ∧
                ¬ isArrayO (getIn json selection.focusPath.dropLast) = true
            · rw [if_pos hmu] at h
              have hok := createCaretSelection_ok .key selection.focusPath r
                (mapSome_ok _ r h)
              rw [hok]
              exact ⟨hfocus, Bool.not_eq_true _ |>.mp hmu.2⟩
            · rw [if_neg hmu] at h
              cases h
        | none =>
          rw [hprev] at h
          dsimp only at h
          by_cases hva : selection.type = .value ∧
              isArrayO (getIn json selection.focusPath.dropLast) = true
          · rw [if_pos hva] at h
            have := createMultiSelection_type _ _ _ _ r (mapSome_ok _ r h)
            rw [this] at hk
            cases hk
          · rw [if_neg hva] at h
            by_cases hmu : selection.type = .multi ∧
                ¬ isArrayO (getIn json selection.focusPath.dropLast) = true
            · rw [if_pos hmu] at h
              have hok := createCaretSelection_ok .key selection.focusPath r
                (mapSome_ok _ r h)
              rw [hok]
              exact ⟨hfocus, Bool.not_eq_true _ |>.mp hmu.2⟩
            · rw [if_neg hmu] at h
              cases h
  · intro operations firstOp rest r heq hne hnarr h hk
    subst heq
    have hrename : ∀ s, operationsRenameOrFallback json (firstOp :: rest) = some s →
        s.type = .key →
        s.focusPath ≠ [] ∧ isArrayO (getIn json s.focusPath.dropLast) = false := by
      intro s hs hks
      unfold operationsRenameOrFallback at hs
      dsimp only at hs
      by_cases hall : ∀ o ∈ firstOp :: rest, o.op = "move"
      · rw [if_pos hall] at hs
        by_cases hren : firstOp.fromPtr ≠ some firstOp.path ∧
            (∀ o ∈ rest, o.fromPtr = some o.path)
        · rw [if_pos hren] at hs
          injection hs with hs
          rw [← hs]
          exact ⟨hne, hnarr⟩
        · rw [if_neg hren] at hs
          have := operationsFallbackSelection_type json (firstOp :: rest) s hs
          rw [this] at hks
          cases hks
      · rw [if_neg hall] at hs
        have := operationsFallbackSelection_type json (firstOp :: rest) s hs
        rw [this] at hks
        cases hks
    unfold createSelectionFromOperations at h
    cases rest with
    | nil =>
      dsimp only at h
      by_cases hop : firstOp.op = "replace" ∨ firstOp.op = "move"
      · rw [if_pos hop] at h
        injection h with h
        rw [← h] at hk
        cases hk
      · rw [if_neg hop] at h
        exact hrename r h hk
    | cons secondOp rest2 =>
      exact hrename r h hk

/-- Witness for `key_selection_invariant`: Down from the `key` selection at
`["a"]` in `{"a": 1, "b": 2}` produces the `key` selection at `["b"]`, whose
focusPath is non-empty and whose parent (the root object) is not an array. -/
theorem key_selection_invariant_witness :
    ([Key.str "b"] : Path) ≠ [] ∧
    isArrayO (getIn (.obj [("a", .num 1), ("b", .num 2)])
      ([Key.str "b"] : Path).dropLast) = false :=
  (key_selection_invariant (.obj [("a", .num 1), ("b", .num 2)])
      (.mk true (some ["a", "b"]) [])).2.1
    ⟨.key, [.str "a"], [.str "a"], [], false⟩ false
    ⟨.key, [.str "b"], [.str "b"], [], false⟩ (by decide) rfl

/-- Counterexample to **C1** as stated: on the object document `{"a": 1}`,
`getSelectionLeft` applied to the `multi` selection at the document root (a
selection the core itself produces, e.g. by Up from an `after` selection at
the root) returns a `key` selection whose focusPath is the empty root path —
a `key` selection for the document root. -/
theorem key_selection_invariant_counterexample :
    getSelectionLeft (.obj [("a", .num 1)]) (.mk true (some ["a"]) [])
        ⟨.multi, [], [], [[]], false⟩ false =
      .ok (some ⟨.key, [], [], [], false⟩) ∧
    (Selection.mk .key [] [] [] false).type = .key ∧
    (Selection.mk .key [] [] [] false).focusPath = [] := by
  refine ⟨by decide, rfl, rfl⟩

end SelectionSpec
